import Mathlib

/-!
Shallow embedding of the shift-assignment core of `project.py`
(killafro/Workschedulemaker).

Weekdays: the source keys days by the characters "1".."7" and maps them to
names through the dict `all_days`.  Here a day is `Fin 7` (0 = Monday, ...,
6 = Sunday) and `dayName` is the `all_days` lookup.

Randomness: `assign_schedule` calls `random.sample(employees, len(employees))`
once per round (a uniformly random permutation) and
`assign_schedule_without_preferences` calls `random.shuffle`.  The embedding
takes those random outcomes as explicit arguments (`samples`, `shuffled`);
`validSamples` states exactly what the Python random source can produce.
Python `list.pop()` removes from the END of the candidate pool, hence the
`.reverse` in `assign_schedule` with a front-consuming recursion.
-/

namespace Workschedulemaker

abbrev Day := Fin 7

/-- A worker: `{"name": ..., "unavailable_days": ...}` from
`get_worker_information`. -/
structure Worker where
  name : String
  unavailable : List Day
deriving DecidableEq

/-- A shift row from `import_shifts`: identifier, opaque start/end display
strings, and the sequence of active-day characters of the "days" field
(order and multiplicity preserved, as Python iterates the raw string). -/
structure Shift where
  shift : String
  start : String
  stop : String
  days : List Day
deriving DecidableEq

/-- The values of the `all_days` dict, in key order "1".."7". -/
def dayNames : List String :=
  ["Monday", "Tuesday", "Wednesday", "Thursday", "Friday", "Saturday", "Sunday"]

/-- `all_days[day_num]`. -/
def dayName (d : Day) : String := dayNames.getD d.val ""

/-- Inner dict of an assignment table: weekday name to assigned workers. -/
abbrev DayTable := List (String × List String)

/-- `assignments`: shift identifier to per-day lists, as an association list
in Python dict key order. -/
abbrev Table := List (String × DayTable)

/-- Python dict lookup on an association list (first matching key). -/
def dictGet {β : Type} : List (String × β) → String → Option β
  | [], _ => none
  | p :: rest, a => if p.1 = a then some p.2 else dictGet rest a

/-- Key sequence of a Python dict built by comprehension over a list of keys:
each key once, in first-occurrence order. -/
def dictKeys : List String → List String
  | [] => []
  | a :: rest => a :: (dictKeys rest).filter (fun b => b ≠ a)

/-- `{day: [] for day in all_days.values()}`. -/
def emptyDayTable : DayTable := dayNames.map (fun n => (n, []))

/-- `{shift["shift"]: {day: [] for day in all_days.values()} for shift in shifts}`. -/
def initTable (shifts : List Shift) : Table :=
  (dictKeys (shifts.map Shift.shift)).map (fun i => (i, emptyDayTable))

/-- `assignments[sid][dn].append w` (mutating the list inside the dicts):
the entry whose key is `dn` gets `w` appended, all others are unchanged. -/
def appendDay : DayTable → String → String → DayTable
  | [], _, _ => []
  | q :: rest, dn, w =>
    (if q.1 = dn then (q.1, q.2 ++ [w]) else q) :: appendDay rest dn w

def appendSlot : Table → String → String → String → Table
  | [], _, _, _ => []
  | p :: rest, sid, dn, w =>
    (if p.1 = sid then (p.1, appendDay p.2 dn w) else p) :: appendSlot rest sid dn w

/-- `assigned_shifts_per_day`: worker name, weekday, committed shift id.
The Python dict is keyed by name (duplicate names share one row), so a
total function from names initialised to `none` is an exact model on every
name that can be looked up. -/
abbrev Committed := String → Day → Option String

def setCommitted (c : Committed) (n : String) (d : Day) (sid : String) : Committed :=
  fun n2 d2 => if n2 = n ∧ d2 = d then some sid else c n2 d2

/-- Outcome of `assign_schedule`: normal return, the recoverable
`NotEnoughWorkersError`, or the fatal `print` + `exit(1)` at line 360. -/
inductive AssignResult where
  | ok (table : Table)
  | notEnoughWorkers
  | fatalExit
deriving DecidableEq

/-- The (shift id, day) slots in iteration order: for each shift in list
order, each character of its "days" field in order. -/
def slots : List Shift → List (String × Day)
  | [] => []
  | s :: rest => s.days.map (fun d => (s.shift, d)) ++ slots rest

/-- The `while` loop at lines 368-379: skip candidates already committed on
that day or with the day in their unavailable set, popping replacements;
`none` models raising `NotEnoughWorkersError` when the pool runs dry. -/
def findEligible (c : Committed) (d : Day) : Worker → List Worker → Option (Worker × List Worker)
  | e, [] =>
      if c e.name d = none ∧ d ∉ e.unavailable then some (e, []) else none
  | e, e2 :: rest =>
      if c e.name d = none ∧ d ∉ e.unavailable then some (e, e2 :: rest)
      else findEligible c d e2 rest

/-- The nested slot loop of `assign_schedule` (lines 355-383), consuming the
pool from the front (the pool argument is the Python list reversed). -/
def go : List (String × Day) → Committed → Table → List Worker → AssignResult
  | [], _, table, _ => .ok table
  | (sid, d) :: rest, c, table, pool =>
    match pool with
    | [] => .fatalExit
    | e :: pool1 =>
      match findEligible c d e pool1 with
      | none => .notEnoughWorkers
      | some (emp, pool2) =>
        go rest (setCommitted c emp.name d sid) (appendSlot table sid (dayName d) emp.name)
          pool2

/-- `assign_schedule(shifts, employees)` with the random outcomes made
explicit: `samples` is the list of `random.sample(employees, len(employees))`
results of the pool-building comprehension (lines 349-353).  The flattened
pool is reversed because `list.pop()` consumes it from the end. -/
def assign_schedule (shifts : List Shift) (employees : List Worker)
    (samples : List (List Worker)) : AssignResult :=
  let _ := employees
  go (slots shifts) (fun _ _ => none) (initTable shifts) samples.flatten.reverse

/-- What the Python random source can hand to `assign_schedule`:
`len(shifts) * len(all_days)` rounds, each a permutation of `employees`. -/
def validSamples (shifts : List Shift) (employees : List Worker)
    (samples : List (List Worker)) : Prop :=
  samples.length = shifts.length * 7 ∧ ∀ b ∈ samples, b.Perm employees

/-- Slot loop of `assign_schedule_without_preferences` (lines 409-417):
`next(employee_cycle)` is position `k mod n` of the shuffled list; with no
workers `itertools.cycle([])` raises `StopIteration` on `next`, modelled as
`none`. -/
def goF : List (String × Day) → Table → List String → Nat → Option Table
  | [], table, _, _ => some table
  | (sid, d) :: rest, table, names, k =>
    match names.get? (k % names.length) with
    | none => none
    | some w => goF rest (appendSlot table sid (dayName d) w) names (k + 1)

/-- `assign_schedule_without_preferences(shifts, employees)`, with `shuffled`
the result of `random.shuffle` on `[employee["name"] for employee in employees]`. -/
def assign_schedule_without_preferences (shifts : List Shift)
    (shuffled : List String) : Option Table :=
  goF (slots shifts) (initTable shifts) shuffled 0

/-- Observation: the assigned-worker list of one (shift id, day name) slot;
missing keys read as the empty list. -/
def slotList (t : Table) (sid dn : String) : List String :=
  match dictGet t sid with
  | none => []
  | some inner => (dictGet inner dn).getD []

/-- Occurrences of worker name `w` in the day-`dn` list of one inner table. -/
def innerOccs (inner : DayTable) (dn w : String) : Nat :=
  (inner.map (fun q => if q.1 = dn then q.2.count w else 0)).sum

/-- Occurrences of worker name `w` on day `dn` summed over all shifts. -/
def dayOccs (t : Table) (dn w : String) : Nat :=
  (t.map (fun p => innerOccs p.2 dn w)).sum

/-- Structural well-formedness the source's dicts always have: shift keys
are pairwise distinct and every inner dict has exactly the seven weekday
names as keys. -/
def TableWF (t : Table) : Prop :=
  (t.map Prod.fst).Nodup ∧ ∀ p ∈ t, p.2.map Prod.fst = dayNames

/-- Spec-side description of the fatal outcome, following the spec's words:
the run aborts exactly when "the pool is empty at the moment a slot requests
its first candidate", tracked along the same slot iteration the code
performs. -/
def firstPopEmpty : List (String × Day) → Committed → Table → List Worker → Bool
  | [], _, _, _ => false
  | (sid, d) :: rest, c, table, pool =>
    match pool with
    | [] => true
    | e :: pool1 =>
      match findEligible c d e pool1 with
      | none => false
      | some (emp, pool2) =>
        firstPopEmpty rest (setCommitted c emp.name d sid)
          (appendSlot table sid (dayName d) emp.name) pool2

/-- Spec-side description of the fallback assigner: the k-th active slot
(0-based, shift-then-day order) receives position `k mod n` of the single
shuffled name sequence, with no eligibility check. -/
def applyAllSpec : List (String × Day) → List String → Nat → Table → Table
  | [], _, _, t => t
  | (sid, d) :: rest, names, k, t =>
    applyAllSpec rest names (k + 1)
      (appendSlot t sid (dayName d) (names.getD (k % names.length) ""))

def fallbackSpecTable (shifts : List Shift) (shuffled : List String) : Table :=
  applyAllSpec (slots shifts) shuffled 0 (initTable shifts)

/-- A seedable deterministic randomness source, as the spec requires for
testing: a linear congruential generator ... -/
def lcg (s : Nat) : Nat := (1103515245 * s + 12345) % 2147483648

/-- ... driving a shuffle that picks each next element by rotation, so that
every permutation is reachable and the result is always a permutation.
The fuel argument is the list length, so recursion is structural. -/
def pseudoShuffleAux {α : Type} : Nat → List α → Nat → List α
  | 0, _, _ => []
  | _ + 1, [], _ => []
  | n + 1, a :: l1, s =>
    match (a :: l1).rotate (s % (a :: l1).length) with
    | [] => []
    | b :: rest => b :: pseudoShuffleAux n rest (lcg s)

def pseudoShuffle {α : Type} (l : List α) (s : Nat) : List α :=
  pseudoShuffleAux l.length l s

/-- The per-round `random.sample` outcomes under the seeded source. -/
def mkSamples (employees : List Worker) : Nat → Nat → List (List Worker)
  | 0, _ => []
  | n + 1, s => pseudoShuffle employees s :: mkSamples employees n (lcg s)

/-- `assign_schedule` run under a fixed seed of the seeded source. -/
def assignScheduleSeeded (shifts : List Shift) (employees : List Worker)
    (seed : Nat) : AssignResult :=
  assign_schedule shifts employees (mkSamples employees (shifts.length * 7) seed)

/-- `assign_schedule_without_preferences` run under a fixed seed. -/
def fallbackSeeded (shifts : List Shift) (employees : List Worker)
    (seed : Nat) : Option Table :=
  assign_schedule_without_preferences shifts (pseudoShuffle (employees.map Worker.name) seed)

/-! Concrete inputs used to instantiate the scenario claims and the
hypotheses of the universally quantified theorems. -/

def demoWorker : Worker := ⟨"W", []⟩

/-- One shift active on all seven days (spec scenario for full-week cover). -/
def weekShift : Shift := ⟨"S", "09:00", "17:00", [0, 1, 2, 3, 4, 5, 6]⟩

/-- Two shifts both active only on Monday (spec infeasibility scenario). -/
def openShift : Shift := ⟨"Open", "09:00", "12:00", [0]⟩
def closeShift : Shift := ⟨"Close", "12:00", "17:00", [0]⟩

/-- One shift active only on Monday. -/
def mondayShift : Shift := ⟨"S", "09:00", "17:00", [0]⟩

/-- Two same-named workers, one of them unavailable on Monday. -/
def dupUnavailable : Worker := ⟨"A", [0]⟩
def dupFree : Worker := ⟨"A", []⟩

/-- The table `assign_schedule` produces in the full-week scenario. -/
def weekTable : Table :=
  [("S", [("Monday", ["W"]), ("Tuesday", ["W"]), ("Wednesday", ["W"]),
          ("Thursday", ["W"]), ("Friday", ["W"]), ("Saturday", ["W"]),
          ("Sunday", ["W"])])]

/-- The table `assign_schedule` produces for `mondayShift` with the two
same-named workers (the unconstrained one ends up on Monday). -/
def dupTable : Table :=
  [("S", [("Monday", ["A"]), ("Tuesday", []), ("Wednesday", []),
          ("Thursday", []), ("Friday", []), ("Saturday", []), ("Sunday", [])])]

/-- The table `assign_schedule` produces for `mondayShift` with one worker. -/
def mondayTable : Table :=
  [("S", [("Monday", ["W"]), ("Tuesday", []), ("Wednesday", []),
          ("Thursday", []), ("Friday", []), ("Saturday", []), ("Sunday", [])])]

/-- A worker unavailable on Tuesday (day index 1). -/
def xWorker : Worker := ⟨"X", [1]⟩

/-- The table `assign_schedule` produces for `mondayShift` with `xWorker`. -/
def xTable : Table :=
  [("S", [("Monday", ["X"]), ("Tuesday", []), ("Wednesday", []),
          ("Thursday", []), ("Friday", []), ("Saturday", []), ("Sunday", [])])]

/-! ### Basic facts about the weekday mapping and the dict model -/

theorem dayNames_nodup : dayNames.Nodup := by decide

theorem dayName_mem : ∀ d : Day, dayName d ∈ dayNames := by decide

theorem dayName_inj : ∀ d1 d2 : Day, dayName d1 = dayName d2 → d1 = d2 := by decide

theorem mem_dictKeys (l : List String) (a : String) : a ∈ dictKeys l ↔ a ∈ l := by
  induction l with
  | nil => simp [dictKeys]
  | cons b rest ih =>
    by_cases hab : a = b
    · subst hab
      simp [dictKeys]
    · simp [dictKeys, List.mem_filter, ih, hab]

theorem dictKeys_nodup (l : List String) : (dictKeys l).Nodup := by
  induction l with
  | nil => simp [dictKeys]
  | cons b rest ih =>
    refine List.Nodup.cons ?_ (List.Nodup.filter _ ih)
    intro hmem
    rcases List.mem_filter.mp hmem with ⟨_, hb⟩
    simp at hb

theorem dictKeys_eq_self (l : List String) (h : l.Nodup) : dictKeys l = l := by
  induction l with
  | nil => rfl
  | cons b rest ih =>
    rcases List.nodup_cons.mp h with ⟨hb, hrest⟩
    have h1 : dictKeys rest = rest := ih hrest
    have h2 : rest.filter (fun x => x ≠ b) = rest := by
      refine List.filter_eq_self.mpr ?_
      intro x hx
      simp only [ne_eq, decide_eq_true_eq]
      intro hxb
      exact hb (hxb ▸ hx)
    show b :: (dictKeys rest).filter (fun x => x ≠ b) = b :: rest
    rw [h1, h2]

theorem dictGet_mem {β : Type} {l : List (String × β)} {a : String} {b : β}
    (h : dictGet l a = some b) : (a, b) ∈ l := by
  induction l with
  | nil => simp [dictGet] at h
  | cons p rest ih =>
    by_cases hpa : p.1 = a
    · simp only [dictGet, if_pos hpa] at h
      have hp : p = (a, b) := by
        obtain ⟨p1, p2⟩ := p
        simp_all
      rw [hp]
      exact List.mem_cons_self _ _
    · simp only [dictGet, if_neg hpa] at h
      exact List.mem_cons_of_mem _ (ih h)

theorem dictGet_eq_some_of_mem {β : Type} {l : List (String × β)} {a : String}
    (h : a ∈ l.map Prod.fst) : ∃ b, dictGet l a = some b := by
  induction l with
  | nil => simp at h
  | cons p rest ih =>
    by_cases hpa : p.1 = a
    · exact ⟨p.2, by simp [dictGet, hpa]⟩
    · have : a ∈ rest.map Prod.fst := by
        rcases List.mem_cons.mp h with h1 | h1
        · exact absurd h1.symm hpa
        · exact h1
      rcases ih this with ⟨b, hb⟩
      exact ⟨b, by simp [dictGet, hpa, hb]⟩

theorem dictGet_map_const {β : Type} (l : List String) (c : β) (a : String) :
    dictGet (l.map (fun i => (i, c))) a = if a ∈ l then some c else none := by
  induction l with
  | nil => simp [dictGet]
  | cons b rest ih =>
    by_cases hab : b = a
    · subst hab
      simp [dictGet]
    · simp [dictGet, hab, ih, Ne.symm hab]

/-! ### How `append` on a slot changes the dicts -/

theorem keys_appendDay (inner : DayTable) (dn w : String) :
    (appendDay inner dn w).map Prod.fst = inner.map Prod.fst := by
  induction inner with
  | nil => rfl
  | cons q rest ih =>
    show (if q.1 = dn then (q.1, q.2 ++ [w]) else q).1 :: (appendDay rest dn w).map Prod.fst
        = q.1 :: rest.map Prod.fst
    rw [ih]
    by_cases hq : q.1 = dn
    · rw [if_pos hq]
    · rw [if_neg hq]

theorem keys_appendSlot (t : Table) (sid dn w : String) :
    (appendSlot t sid dn w).map Prod.fst = t.map Prod.fst := by
  induction t with
  | nil => rfl
  | cons p rest ih =>
    show (if p.1 = sid then (p.1, appendDay p.2 dn w) else p).1
          :: (appendSlot rest sid dn w).map Prod.fst
        = p.1 :: rest.map Prod.fst
    rw [ih]
    by_cases hp : p.1 = sid
    · rw [if_pos hp]
    · rw [if_neg hp]

theorem dictGet_appendDay (inner : DayTable) (dn w b : String) :
    dictGet (appendDay inner dn w) b =
      if b = dn then (dictGet inner b).map (fun x => x ++ [w])
      else dictGet inner b := by
  induction inner with
  | nil =>
    show (none : Option (List String)) = if b = dn then Option.map _ none else none
    by_cases hbd : b = dn
    · rw [if_pos hbd]
      rfl
    · rw [if_neg hbd]
  | cons q rest ih =>
    by_cases hqd : q.1 = dn
    · by_cases hqb : q.1 = b
      · have hbd : b = dn := hqb ▸ hqd
        show dictGet ((if q.1 = dn then (q.1, q.2 ++ [w]) else q) :: appendDay rest dn w) b = _
        rw [if_pos hqd,
            show dictGet ((q.1, q.2 ++ [w]) :: appendDay rest dn w) b
              = some (q.2 ++ [w]) from if_pos hqb,
            if_pos hbd,
            show dictGet (q :: rest) b = some q.2 from if_pos hqb]
        rfl
      · show dictGet ((if q.1 = dn then (q.1, q.2 ++ [w]) else q) :: appendDay rest dn w) b = _
        rw [if_pos hqd]
        rw [show dictGet ((q.1, q.2 ++ [w]) :: appendDay rest dn w) b
              = dictGet (appendDay rest dn w) b from if_neg hqb,
            show dictGet (q :: rest) b = dictGet rest b from if_neg hqb]
        exact ih
    · by_cases hqb : q.1 = b
      · have hbd : ¬ b = dn := fun hb => hqd (hqb.symm ▸ hb)
        show dictGet ((if q.1 = dn then (q.1, q.2 ++ [w]) else q) :: appendDay rest dn w) b = _
        rw [if_neg hqd,
            show dictGet (q :: appendDay rest dn w) b = some q.2 from if_pos hqb,
            if_neg hbd,
            show dictGet (q :: rest) b = some q.2 from if_pos hqb]
      · show dictGet ((if q.1 = dn then (q.1, q.2 ++ [w]) else q) :: appendDay rest dn w) b = _
        rw [if_neg hqd,
            show dictGet (q :: appendDay rest dn w) b
              = dictGet (appendDay rest dn w) b from if_neg hqb,
            show dictGet (q :: rest) b = dictGet rest b from if_neg hqb]
        exact ih

theorem dictGet_appendSlot (t : Table) (sid dn w a : String) :
    dictGet (appendSlot t sid dn w) a =
      if a = sid then (dictGet t a).map (fun inner => appendDay inner dn w)
      else dictGet t a := by
  induction t with
  | nil =>
    show (none : Option DayTable) = if a = sid then Option.map _ none else none
    by_cases has : a = sid
    · rw [if_pos has]
      rfl
    · rw [if_neg has]
  | cons p rest ih =>
    by_cases hps : p.1 = sid
    · by_cases hpa : p.1 = a
      · have has : a = sid := hpa ▸ hps
        show dictGet ((if p.1 = sid then (p.1, appendDay p.2 dn w) else p)
              :: appendSlot rest sid dn w) a = _
        rw [if_pos hps,
            show dictGet ((p.1, appendDay p.2 dn w) :: appendSlot rest sid dn w) a
              = some (appendDay p.2 dn w) from if_pos hpa,
            if_pos has,
            show dictGet (p :: rest) a = some p.2 from if_pos hpa]
        rfl
      · show dictGet ((if p.1 = sid then (p.1, appendDay p.2 dn w) else p)
              :: appendSlot rest sid dn w) a = _
        rw [if_pos hps,
            show dictGet ((p.1, appendDay p.2 dn w) :: appendSlot rest sid dn w) a
              = dictGet (appendSlot rest sid dn w) a from if_neg hpa,
            show dictGet (p :: rest) a = dictGet rest a from if_neg hpa]
        exact ih
    · by_cases hpa : p.1 = a
      · have has : ¬ a = sid := fun ha => hps (hpa.symm ▸ ha)
        show dictGet ((if p.1 = sid then (p.1, appendDay p.2 dn w) else p)
              :: appendSlot rest sid dn w) a = _
        rw [if_neg hps,
            show dictGet (p :: appendSlot rest sid dn w) a = some p.2 from if_pos hpa,
            if_neg has,
            show dictGet (p :: rest) a = some p.2 from if_pos hpa]
      · show dictGet ((if p.1 = sid then (p.1, appendDay p.2 dn w) else p)
              :: appendSlot rest sid dn w) a = _
        rw [if_neg hps,
            show dictGet (p :: appendSlot rest sid dn w) a
              = dictGet (appendSlot rest sid dn w) a from if_neg hpa,
            show dictGet (p :: rest) a = dictGet rest a from if_neg hpa]
        exact ih

theorem mem_appendSlot {t : Table} {sid dn w : String} {p : String × DayTable}
    (hp : p ∈ appendSlot t sid dn w) :
    ∃ q ∈ t, p = if q.1 = sid then (q.1, appendDay q.2 dn w) else q := by
  induction t with
  | nil => simp [appendSlot] at hp
  | cons q rest ih =>
    rcases List.mem_cons.mp hp with h | h
    · exact ⟨q, List.mem_cons_self _ _, h⟩
    · rcases ih h with ⟨q2, hq2, hq2p⟩
      exact ⟨q2, List.mem_cons_of_mem _ hq2, hq2p⟩

theorem wf_appendSlot {t : Table} (h : TableWF t) (sid dn w : String) :
    TableWF (appendSlot t sid dn w) := by
  constructor
  · rw [keys_appendSlot]
    exact h.1
  · intro p hp
    rcases mem_appendSlot hp with ⟨q, hq, hqp⟩
    by_cases hqs : q.1 = sid
    · rw [if_pos hqs] at hqp
      rw [hqp]
      show (appendDay q.2 dn w).map Prod.fst = dayNames
      rw [keys_appendDay]
      exact h.2 q hq
    · rw [if_neg hqs] at hqp
      rw [hqp]
      exact h.2 q hq

theorem keys_map_pair {β : Type} (l : List String) (c : β) :
    (l.map (fun i => (i, c))).map Prod.fst = l := by
  induction l with
  | nil => rfl
  | cons a rest ih =>
    show a :: (rest.map (fun i => (i, c))).map Prod.fst = a :: rest
    rw [ih]

theorem keys_emptyDayTable : emptyDayTable.map Prod.fst = dayNames := rfl

theorem keys_initTable (shifts : List Shift) :
    (initTable shifts).map Prod.fst = dictKeys (shifts.map Shift.shift) :=
  keys_map_pair _ _

theorem wf_initTable (shifts : List Shift) : TableWF (initTable shifts) := by
  constructor
  · rw [keys_initTable]
    exact dictKeys_nodup _
  · intro p hp
    rcases List.mem_map.mp hp with ⟨i, _, hip⟩
    rw [← hip]
    exact keys_emptyDayTable

theorem slotList_initTable (shifts : List Shift) (a b : String) :
    slotList (initTable shifts) a b = [] := by
  unfold slotList initTable
  rw [dictGet_map_const]
  by_cases h : a ∈ dictKeys (shifts.map Shift.shift)
  · rw [if_pos h]
    show (dictGet emptyDayTable b).getD [] = []
    unfold emptyDayTable
    rw [dictGet_map_const]
    by_cases h2 : b ∈ dayNames
    · rw [if_pos h2]
      rfl
    · rw [if_neg h2]
      rfl
  · rw [if_neg h]

theorem slotList_appendSlot_other (t : Table) (sid dn w a b : String)
    (h : ¬(a = sid ∧ b = dn)) :
    slotList (appendSlot t sid dn w) a b = slotList t a b := by
  unfold slotList
  rw [dictGet_appendSlot]
  by_cases has : a = sid
  · rw [if_pos has]
    cases hg : dictGet t a with
    | none => rfl
    | some inner =>
      show (dictGet (appendDay inner dn w) b).getD [] = (dictGet inner b).getD []
      have hbd : ¬ b = dn := fun hb => h ⟨has, hb⟩
      rw [dictGet_appendDay, if_neg hbd]
  · rw [if_neg has]

theorem slotList_appendSlot_self (t : Table) (sid dn w : String)
    (hk : sid ∈ t.map Prod.fst) (hw : ∀ p ∈ t, p.2.map Prod.fst = dayNames)
    (hd : dn ∈ dayNames) :
    slotList (appendSlot t sid dn w) sid dn = slotList t sid dn ++ [w] := by
  rcases dictGet_eq_some_of_mem hk with ⟨inner, hinner⟩
  have hmem : (sid, inner) ∈ t := dictGet_mem hinner
  have hkeys : inner.map Prod.fst = dayNames := hw _ hmem
  have hdn : dn ∈ inner.map Prod.fst := hkeys ▸ hd
  rcases dictGet_eq_some_of_mem hdn with ⟨lst, hlst⟩
  unfold slotList
  rw [dictGet_appendSlot, if_pos rfl, hinner]
  show (dictGet (appendDay inner dn w) dn).getD [] = (dictGet inner dn).getD [] ++ [w]
  rw [dictGet_appendDay, if_pos rfl, hlst]
  rfl

/-! ### Occurrence counting under slot appends -/

theorem innerOccs_cons (q : String × List String) (rest : DayTable) (dn w : String) :
    innerOccs (q :: rest) dn w
      = (if q.1 = dn then q.2.count w else 0) + innerOccs rest dn w := rfl

theorem dayOccs_cons (p : String × DayTable) (rest : Table) (dn w : String) :
    dayOccs (p :: rest) dn w = innerOccs p.2 dn w + dayOccs rest dn w := rfl

theorem appendDay_not_mem {inner : DayTable} {dn : String}
    (h : dn ∉ inner.map Prod.fst) (w : String) : appendDay inner dn w = inner := by
  induction inner with
  | nil => rfl
  | cons q rest ih =>
    have hq : ¬ q.1 = dn := fun he => h (by rw [← he]; exact List.mem_cons_self _ _)
    have hrest : dn ∉ rest.map Prod.fst := fun hm => h (List.mem_cons_of_mem _ hm)
    show (if q.1 = dn then (q.1, q.2 ++ [w]) else q) :: appendDay rest dn w = q :: rest
    rw [if_neg hq, ih hrest]

theorem appendSlot_not_mem {t : Table} {sid : String}
    (h : sid ∉ t.map Prod.fst) (dn w : String) : appendSlot t sid dn w = t := by
  induction t with
  | nil => rfl
  | cons p rest ih =>
    have hp : ¬ p.1 = sid := fun he => h (by rw [← he]; exact List.mem_cons_self _ _)
    have hrest : sid ∉ rest.map Prod.fst := fun hm => h (List.mem_cons_of_mem _ hm)
    show (if p.1 = sid then (p.1, appendDay p.2 dn w) else p) :: appendSlot rest sid dn w
        = p :: rest
    rw [if_neg hp, ih hrest]

theorem count_append_singleton (l : List String) (w w2 : String) :
    (l ++ [w]).count w2 = l.count w2 + (if w2 = w then 1 else 0) := by
  rw [List.count_append, List.count_singleton]
  by_cases h : w2 = w
  · rw [if_pos h, if_pos (by exact beq_iff_eq.mpr h.symm)]
  · rw [if_neg h, if_neg (by simp [beq_iff_eq]; exact fun he => h he.symm)]

theorem innerOccs_appendDay (inner : DayTable) (dn w dn2 w2 : String)
    (hnd : (inner.map Prod.fst).Nodup) :
    innerOccs (appendDay inner dn w) dn2 w2 =
      innerOccs inner dn2 w2
        + (if dn ∈ inner.map Prod.fst ∧ dn2 = dn ∧ w2 = w then 1 else 0) := by
  induction inner with
  | nil => simp [appendDay, innerOccs]
  | cons q rest ih =>
    have hq : q.1 ∉ rest.map Prod.fst := (List.nodup_cons.mp hnd).1
    have hrest : (rest.map Prod.fst).Nodup := (List.nodup_cons.mp hnd).2
    by_cases hqd : q.1 = dn
    · subst hqd
      show innerOccs ((if q.1 = q.1 then (q.1, q.2 ++ [w]) else q) :: appendDay rest q.1 w)
            dn2 w2 = _
      rw [if_pos rfl]
      show (if q.1 = dn2 then (q.2 ++ [w]).count w2 else 0)
            + innerOccs (appendDay rest q.1 w) dn2 w2 = _
      rw [appendDay_not_mem hq w]
      show _ = ((if q.1 = dn2 then q.2.count w2 else 0) + innerOccs rest dn2 w2)
            + (if q.1 ∈ (q :: rest).map Prod.fst ∧ dn2 = q.1 ∧ w2 = w then 1 else 0)
      have hcm : q.1 ∈ (q :: rest).map Prod.fst := List.mem_cons_self _ _
      by_cases hd2 : q.1 = dn2
      · subst hd2
        rw [if_pos rfl, if_pos rfl, count_append_singleton]
        by_cases hw2 : w2 = w
        · rw [if_pos hw2, if_pos ⟨hcm, rfl, hw2⟩]
          omega
        · rw [if_neg hw2, if_neg (fun hc => hw2 hc.2.2)]
          omega
      · rw [if_neg hd2, if_neg hd2, if_neg (fun hc => hd2 hc.2.1.symm)]
        omega
    · show innerOccs ((if q.1 = dn then (q.1, q.2 ++ [w]) else q) :: appendDay rest dn w)
            dn2 w2 = _
      rw [if_neg hqd]
      show (if q.1 = dn2 then q.2.count w2 else 0) + innerOccs (appendDay rest dn w) dn2 w2 = _
      rw [ih hrest]
      show _ = ((if q.1 = dn2 then q.2.count w2 else 0) + innerOccs rest dn2 w2)
            + (if dn ∈ (q :: rest).map Prod.fst ∧ dn2 = dn ∧ w2 = w then 1 else 0)
      have hmm : (dn ∈ (q :: rest).map Prod.fst ∧ dn2 = dn ∧ w2 = w)
               ↔ (dn ∈ rest.map Prod.fst ∧ dn2 = dn ∧ w2 = w) := by
        constructor
        · rintro ⟨hm, h2⟩
          rcases List.mem_cons.mp hm with he | hm2
          · exact absurd he.symm hqd
          · exact ⟨hm2, h2⟩
        · rintro ⟨hm, h2⟩
          exact ⟨List.mem_cons_of_mem _ hm, h2⟩
      by_cases hcond : dn ∈ rest.map Prod.fst ∧ dn2 = dn ∧ w2 = w
      · rw [if_pos hcond, if_pos (hmm.mpr hcond)]
        omega
      · rw [if_neg hcond, if_neg (fun hc => hcond (hmm.mp hc))]
        omega

theorem dayOccs_appendSlot (t : Table) (sid dn w dn2 w2 : String)
    (hnd : (t.map Prod.fst).Nodup) (hwf : ∀ p ∈ t, p.2.map Prod.fst = dayNames) :
    dayOccs (appendSlot t sid dn w) dn2 w2 =
      dayOccs t dn2 w2
        + (if sid ∈ t.map Prod.fst ∧ dn ∈ dayNames ∧ dn2 = dn ∧ w2 = w then 1 else 0) := by
  induction t with
  | nil => simp [appendSlot, dayOccs]
  | cons p rest ih =>
    have hp : p.1 ∉ rest.map Prod.fst := (List.nodup_cons.mp hnd).1
    have hrest : (rest.map Prod.fst).Nodup := (List.nodup_cons.mp hnd).2
    have hwf2 : ∀ q ∈ rest, q.2.map Prod.fst = dayNames :=
      fun q hq => hwf q (List.mem_cons_of_mem _ hq)
    by_cases hps : p.1 = sid
    · subst hps
      have hkeys : p.2.map Prod.fst = dayNames := hwf p (List.mem_cons_self _ _)
      have hknd : (p.2.map Prod.fst).Nodup := by
        rw [hkeys]
        exact dayNames_nodup
      have hsm : p.1 ∈ (p :: rest).map Prod.fst := List.mem_cons_self _ _
      show dayOccs ((if p.1 = p.1 then (p.1, appendDay p.2 dn w) else p)
            :: appendSlot rest p.1 dn w) dn2 w2 = _
      rw [if_pos rfl]
      show innerOccs (appendDay p.2 dn w) dn2 w2
            + dayOccs (appendSlot rest p.1 dn w) dn2 w2 = _
      rw [appendSlot_not_mem hp dn w, innerOccs_appendDay p.2 dn w dn2 w2 hknd, hkeys]
      show _ = (innerOccs p.2 dn2 w2 + dayOccs rest dn2 w2)
            + (if p.1 ∈ (p :: rest).map Prod.fst ∧ dn ∈ dayNames ∧ dn2 = dn ∧ w2 = w
               then 1 else 0)
      by_cases hcond : dn ∈ dayNames ∧ dn2 = dn ∧ w2 = w
      · rw [if_pos hcond, if_pos ⟨hsm, hcond⟩]
        omega
      · rw [if_neg hcond, if_neg (fun hc => hcond hc.2)]
        omega
    · show dayOccs ((if p.1 = sid then (p.1, appendDay p.2 dn w) else p)
            :: appendSlot rest sid dn w) dn2 w2 = _
      rw [if_neg hps]
      show innerOccs p.2 dn2 w2 + dayOccs (appendSlot rest sid dn w) dn2 w2 = _
      rw [ih hrest hwf2]
      show _ = (innerOccs p.2 dn2 w2 + dayOccs rest dn2 w2)
            + (if sid ∈ (p :: rest).map Prod.fst ∧ dn ∈ dayNames ∧ dn2 = dn ∧ w2 = w
               then 1 else 0)
      have hmm : (sid ∈ (p :: rest).map Prod.fst ∧ dn ∈ dayNames ∧ dn2 = dn ∧ w2 = w)
               ↔ (sid ∈ rest.map Prod.fst ∧ dn ∈ dayNames ∧ dn2 = dn ∧ w2 = w) := by
        constructor
        · rintro ⟨hm, h2⟩
          rcases List.mem_cons.mp hm with he | hm2
          · exact absurd he.symm hps
          · exact ⟨hm2, h2⟩
        · rintro ⟨hm, h2⟩
          exact ⟨List.mem_cons_of_mem _ hm, h2⟩
      by_cases hcond : sid ∈ rest.map Prod.fst ∧ dn ∈ dayNames ∧ dn2 = dn ∧ w2 = w
      · rw [if_pos hcond, if_pos (hmm.mpr hcond)]
        omega
      · rw [if_neg hcond, if_neg (fun hc => hcond (hmm.mp hc))]
        omega

theorem innerOccs_emptyDayTable (dn w : String) : innerOccs emptyDayTable dn w = 0 := by
  simp [innerOccs, emptyDayTable, dayNames]

theorem dayOccs_map_empty (l : List String) (dn w : String) :
    dayOccs (l.map (fun i => (i, emptyDayTable))) dn w = 0 := by
  induction l with
  | nil => rfl
  | cons a rest ih =>
    show innerOccs emptyDayTable dn w + dayOccs (rest.map (fun i => (i, emptyDayTable))) dn w = 0
    rw [innerOccs_emptyDayTable, ih]

theorem dayOccs_initTable (shifts : List Shift) (dn w : String) :
    dayOccs (initTable shifts) dn w = 0 :=
  dayOccs_map_empty _ dn w

/-! ### Facts about the candidate-skipping loop -/

theorem findEligible_eligible (c : Committed) (d : Day) :
    ∀ pool e emp pool2, findEligible c d e pool = some (emp, pool2) →
      c emp.name d = none ∧ d ∉ emp.unavailable := by
  intro pool
  induction pool with
  | nil =>
    intro e emp pool2 h
    rw [findEligible] at h
    by_cases hc : c e.name d = none ∧ d ∉ e.unavailable
    · rw [if_pos hc] at h
      injection h with h1
      injection h1 with h2 h3
      subst h2
      exact hc
    · rw [if_neg hc] at h
      exact Option.noConfusion h
  | cons e2 rest ih =>
    intro e emp pool2 h
    rw [findEligible] at h
    by_cases hc : c e.name d = none ∧ d ∉ e.unavailable
    · rw [if_pos hc] at h
      injection h with h1
      injection h1 with h2 h3
      subst h2
      exact hc
    · rw [if_neg hc] at h
      exact ih e2 emp pool2 h

theorem findEligible_mem (c : Committed) (d : Day) :
    ∀ pool e emp pool2, findEligible c d e pool = some (emp, pool2) →
      emp ∈ e :: pool ∧ ∀ x ∈ pool2, x ∈ e :: pool := by
  intro pool
  induction pool with
  | nil =>
    intro e emp pool2 h
    rw [findEligible] at h
    by_cases hc : c e.name d = none ∧ d ∉ e.unavailable
    · rw [if_pos hc] at h
      injection h with h1
      injection h1 with h2 h3
      subst h2
      subst h3
      exact ⟨List.mem_cons_self _ _, fun x hx => absurd hx (List.not_mem_nil x)⟩
    · rw [if_neg hc] at h
      exact Option.noConfusion h
  | cons e2 rest ih =>
    intro e emp pool2 h
    rw [findEligible] at h
    by_cases hc : c e.name d = none ∧ d ∉ e.unavailable
    · rw [if_pos hc] at h
      injection h with h1
      injection h1 with h2 h3
      subst h2
      subst h3
      exact ⟨List.mem_cons_self _ _, fun x hx => List.mem_cons_of_mem _ hx⟩
    · rw [if_neg hc] at h
      rcases ih e2 emp pool2 h with ⟨hm, hsub⟩
      exact ⟨List.mem_cons_of_mem _ hm, fun x hx => List.mem_cons_of_mem _ (hsub x hx)⟩

/-! ### Inversion of one step of the assignment loops -/

theorem go_cons_ok {sid : String} {d : Day} {rest : List (String × Day)}
    {c : Committed} {table : Table} {pool : List Worker} {t : Table}
    (h : go ((sid, d) :: rest) c table pool = .ok t) :
    ∃ emp pool2,
      c emp.name d = none ∧ d ∉ emp.unavailable
      ∧ emp ∈ pool ∧ (∀ x ∈ pool2, x ∈ pool)
      ∧ go rest (setCommitted c emp.name d sid)
          (appendSlot table sid (dayName d) emp.name) pool2 = .ok t := by
  cases pool with
  | nil =>
    rw [go] at h
    exact AssignResult.noConfusion h
  | cons e pool1 =>
    cases hfe : findEligible c d e pool1 with
    | none =>
      rw [go, hfe] at h
      exact AssignResult.noConfusion h
    | some pr =>
      obtain ⟨emp, pool2⟩ := pr
      rw [go, hfe] at h
      rcases findEligible_eligible c d pool1 e emp pool2 hfe with ⟨hce, hcu⟩
      rcases findEligible_mem c d pool1 e emp pool2 hfe with ⟨hm, hsub⟩
      exact ⟨emp, pool2, hce, hcu, hm, hsub, h⟩

theorem goF_cons_some {sid : String} {d : Day} {rest : List (String × Day)}
    {table : Table} {names : List String} {k : Nat} {t : Table}
    (h : goF ((sid, d) :: rest) table names k = some t) :
    ∃ w, names.get? (k % names.length) = some w
      ∧ goF rest (appendSlot table sid (dayName d) w) names (k + 1) = some t := by
  cases hg : names.get? (k % names.length) with
  | none =>
    rw [goF, hg] at h
    exact Option.noConfusion h
  | some w =>
    rw [goF, hg] at h
    exact ⟨w, rfl, h⟩

/-! ### The constrained loop preserves table structure -/

theorem go_ok_keys :
    ∀ l (c : Committed) (table : Table) (pool : List Worker) (t : Table),
      go l c table pool = .ok t → t.map Prod.fst = table.map Prod.fst := by
  intro l
  induction l with
  | nil =>
    intro c table pool t h
    rw [go] at h
    injection h with h1
    rw [← h1]
  | cons s rest ih =>
    intro c table pool t h
    obtain ⟨sid, d⟩ := s
    rcases go_cons_ok h with ⟨emp, pool2, _, _, _, _, hrec⟩
    rw [ih _ _ _ _ hrec, keys_appendSlot]

theorem go_ok_wf :
    ∀ l (c : Committed) (table : Table) (pool : List Worker) (t : Table),
      go l c table pool = .ok t → TableWF table → TableWF t := by
  intro l
  induction l with
  | nil =>
    intro c table pool t h hwf
    rw [go] at h
    injection h with h1
    rw [← h1]
    exact hwf
  | cons s rest ih =>
    intro c table pool t h hwf
    obtain ⟨sid, d⟩ := s
    rcases go_cons_ok h with ⟨emp, pool2, _, _, _, _, hrec⟩
    exact ih _ _ _ _ hrec (wf_appendSlot hwf _ _ _)

theorem go_frame :
    ∀ l (c : Committed) (table : Table) (pool : List Worker) (t : Table),
      go l c table pool = .ok t →
      ∀ a b : String, (∀ s ∈ l, ¬(s.1 = a ∧ dayName s.2 = b)) →
      slotList t a b = slotList table a b := by
  intro l
  induction l with
  | nil =>
    intro c table pool t h a b _
    rw [go] at h
    injection h with h1
    rw [← h1]
  | cons s rest ih =>
    intro c table pool t h a b hout
    obtain ⟨sid, d⟩ := s
    rcases go_cons_ok h with ⟨emp, pool2, _, _, _, _, hrec⟩
    have h1 : slotList t a b
        = slotList (appendSlot table sid (dayName d) emp.name) a b :=
      ih _ _ _ _ hrec a b (fun s2 hs2 => hout s2 (List.mem_cons_of_mem _ hs2))
    have hhead : ¬(a = sid ∧ b = dayName d) := by
      rintro ⟨ha, hb⟩
      exact hout (sid, d) (List.mem_cons_self _ _) ⟨ha.symm, hb.symm⟩
    rw [h1, slotList_appendSlot_other _ _ _ _ _ _ hhead]

/-! ### Invariant: at most one same-day assignment per worker name -/

theorem go_dayOccs :
    ∀ l (c : Committed) (table : Table) (pool : List Worker) (t : Table),
      TableWF table →
      (∀ w d2, c w d2 = none → dayOccs table (dayName d2) w = 0) →
      (∀ w d2, dayOccs table (dayName d2) w ≤ 1) →
      go l c table pool = .ok t →
      ∀ (w : String) (d2 : Day), dayOccs t (dayName d2) w ≤ 1 := by
  intro l
  induction l with
  | nil =>
    intro c table pool t _ _ hle h w d2
    rw [go] at h
    injection h with h1
    rw [← h1]
    exact hle w d2
  | cons s rest ih =>
    intro c table pool t hwf hzero hle h
    obtain ⟨sid, d⟩ := s
    rcases go_cons_ok h with ⟨emp, pool2, hce, _, _, _, hrec⟩
    have hocc : ∀ (w : String) (d2 : Day),
        dayOccs (appendSlot table sid (dayName d) emp.name) (dayName d2) w
          = dayOccs table (dayName d2) w
            + (if sid ∈ table.map Prod.fst ∧ dayName d ∈ dayNames
                  ∧ dayName d2 = dayName d ∧ w = emp.name then 1 else 0) :=
      fun w d2 => dayOccs_appendSlot table sid (dayName d) emp.name (dayName d2) w
        hwf.1 hwf.2
    refine ih _ _ _ _ (wf_appendSlot hwf _ _ _) ?_ ?_ hrec
    · intro w d2 hc2
      have hnot : ¬(w = emp.name ∧ d2 = d) := by
        rintro ⟨hw, hd⟩
        rw [setCommitted, if_pos ⟨hw, hd⟩] at hc2
        exact Option.noConfusion hc2
      have hcold : c w d2 = none := by
        rw [setCommitted, if_neg hnot] at hc2
        exact hc2
      rw [hocc w d2, hzero w d2 hcold, if_neg ?_]
      rintro ⟨_, _, hdd, hww⟩
      exact hnot ⟨hww, dayName_inj d2 d hdd⟩
    · intro w d2
      rw [hocc w d2]
      by_cases hcnd : dayName d2 = dayName d ∧ w = emp.name
      · have hz : dayOccs table (dayName d2) w = 0 := by
          rw [hcnd.2, dayName_inj d2 d hcnd.1]
          exact hzero emp.name d hce
        rw [hz]
        by_cases hfull : sid ∈ table.map Prod.fst ∧ dayName d ∈ dayNames
            ∧ dayName d2 = dayName d ∧ w = emp.name
        · rw [if_pos hfull]
        · rw [if_neg hfull]
          omega
      · rw [if_neg (fun hc => hcnd ⟨hc.2.2.1, hc.2.2.2⟩)]
        have := hle w d2
        omega

/-! ### Invariant: a worker unavailable on a day never appears on it -/

theorem go_unavail (employees : List Worker)
    (hinj : ∀ e1 ∈ employees, ∀ e2 ∈ employees, e1.name = e2.name → e1 = e2) :
    ∀ l (c : Committed) (table : Table) (pool : List Worker) (t : Table),
      TableWF table →
      (∀ x ∈ pool, x ∈ employees) →
      (∀ e ∈ employees, ∀ d2 ∈ e.unavailable, dayOccs table (dayName d2) e.name = 0) →
      go l c table pool = .ok t →
      ∀ e ∈ employees, ∀ d2 ∈ e.unavailable, dayOccs t (dayName d2) e.name = 0 := by
  intro l
  induction l with
  | nil =>
    intro c table pool t _ _ hzero h
    rw [go] at h
    injection h with h1
    rw [← h1]
    exact hzero
  | cons s rest ih =>
    intro c table pool t hwf hpool hzero h
    obtain ⟨sid, d⟩ := s
    rcases go_cons_ok h with ⟨emp, pool2, _, hcu, hmem, hsub, hrec⟩
    have hemp : emp ∈ employees := hpool emp hmem
    refine ih _ _ _ _ (wf_appendSlot hwf _ _ _) (fun x hx => hpool x (hsub x hx)) ?_ hrec
    intro e he d2 hd2
    rw [dayOccs_appendSlot table sid (dayName d) emp.name (dayName d2) e.name hwf.1 hwf.2,
      hzero e he d2 hd2, if_neg ?_]
    rintro ⟨_, _, hdd, hnn⟩
    have hed : d2 = d := dayName_inj d2 d hdd
    have hee : e = emp := hinj e he emp hemp hnn
    rw [hee, hed] at hd2
    exact hcu hd2

/-! ### Invariant: each processed slot ends with exactly one worker -/

theorem go_slots :
    ∀ l (c : Committed) (table : Table) (pool : List Worker) (t : Table),
      TableWF table →
      (∀ s ∈ l, s.1 ∈ table.map Prod.fst) →
      ((l.map (fun s => (s.1, dayName s.2))).Nodup) →
      (∀ s ∈ l, slotList table s.1 (dayName s.2) = []) →
      go l c table pool = .ok t →
      ∀ s ∈ l, (slotList t s.1 (dayName s.2)).length = 1 := by
  intro l
  induction l with
  | nil =>
    intro c table pool t _ _ _ _ _ s hs
    exact absurd hs (List.not_mem_nil s)
  | cons s0 rest ih =>
    intro c table pool t hwf hkeys hnd hempty h
    obtain ⟨sid, d⟩ := s0
    rcases go_cons_ok h with ⟨emp, pool2, _, _, _, _, hrec⟩
    have hproj : (sid, dayName d) ∉ rest.map (fun s => (s.1, dayName s.2)) :=
      (List.nodup_cons.mp hnd).1
    have hndrest : (rest.map (fun s => (s.1, dayName s.2))).Nodup :=
      (List.nodup_cons.mp hnd).2
    have hset : slotList (appendSlot table sid (dayName d) emp.name) sid (dayName d)
        = [emp.name] := by
      rw [slotList_appendSlot_self table sid (dayName d) emp.name
        (hkeys (sid, d) (List.mem_cons_self _ _)) hwf.2 (dayName_mem d),
        hempty (sid, d) (List.mem_cons_self _ _)]
      rfl
    intro s hs
    rcases List.mem_cons.mp hs with hs0 | hsr
    · rw [hs0]
      have hfr : slotList t sid (dayName d)
          = slotList (appendSlot table sid (dayName d) emp.name) sid (dayName d) := by
        refine go_frame rest _ _ _ _ hrec sid (dayName d) ?_
        rintro s2 hs2 ⟨ha, hb⟩
        refine hproj ?_
        have : (fun s => (s.1, dayName s.2)) s2 = (sid, dayName d) := by
          show (s2.1, dayName s2.2) = (sid, dayName d)
          rw [ha, hb]
        rw [← this]
        exact List.mem_map_of_mem _ hs2
      rw [hfr, hset]
      rfl
    · refine ih _ _ _ _ (wf_appendSlot hwf _ _ _) ?_ hndrest ?_ hrec s hsr
      · intro s2 hs2
        rw [keys_appendSlot]
        exact hkeys s2 (List.mem_cons_of_mem _ hs2)
      · intro s2 hs2
        have hne : ¬(s2.1 = sid ∧ dayName s2.2 = dayName d) := by
          rintro ⟨ha, hb⟩
          refine hproj ?_
          have : (fun s => (s.1, dayName s.2)) s2 = (sid, dayName d) := by
            show (s2.1, dayName s2.2) = (sid, dayName d)
            rw [ha, hb]
          rw [← this]
          exact List.mem_map_of_mem _ hs2
        rw [slotList_appendSlot_other table sid (dayName d) emp.name s2.1 (dayName s2.2) hne]
        exact hempty s2 (List.mem_cons_of_mem _ hs2)

/-! ### The fallback loop: structure preservation and its closed form -/

theorem goF_some_keys :
    ∀ l (table : Table) (names : List String) (k : Nat) (t : Table),
      goF l table names k = some t → t.map Prod.fst = table.map Prod.fst := by
  intro l
  induction l with
  | nil =>
    intro table names k t h
    rw [goF] at h
    injection h with h1
    rw [← h1]
  | cons s rest ih =>
    intro table names k t h
    obtain ⟨sid, d⟩ := s
    rcases goF_cons_some h with ⟨w, _, hrec⟩
    rw [ih _ _ _ _ hrec, keys_appendSlot]

theorem goF_some_wf :
    ∀ l (table : Table) (names : List String) (k : Nat) (t : Table),
      goF l table names k = some t → TableWF table → TableWF t := by
  intro l
  induction l with
  | nil =>
    intro table names k t h hwf
    rw [goF] at h
    injection h with h1
    rw [← h1]
    exact hwf
  | cons s rest ih =>
    intro table names k t h hwf
    obtain ⟨sid, d⟩ := s
    rcases goF_cons_some h with ⟨w, _, hrec⟩
    exact ih _ _ _ _ hrec (wf_appendSlot hwf _ _ _)

theorem goF_frame :
    ∀ l (table : Table) (names : List String) (k : Nat) (t : Table),
      goF l table names k = some t →
      ∀ a b : String, (∀ s ∈ l, ¬(s.1 = a ∧ dayName s.2 = b)) →
      slotList t a b = slotList table a b := by
  intro l
  induction l with
  | nil =>
    intro table names k t h a b _
    rw [goF] at h
    injection h with h1
    rw [← h1]
  | cons s rest ih =>
    intro table names k t h a b hout
    obtain ⟨sid, d⟩ := s
    rcases goF_cons_some h with ⟨w, _, hrec⟩
    have h1 : slotList t a b = slotList (appendSlot table sid (dayName d) w) a b :=
      ih _ _ _ _ hrec a b (fun s2 hs2 => hout s2 (List.mem_cons_of_mem _ hs2))
    have hhead : ¬(a = sid ∧ b = dayName d) := by
      rintro ⟨ha, hb⟩
      exact hout (sid, d) (List.mem_cons_self _ _) ⟨ha.symm, hb.symm⟩
    rw [h1, slotList_appendSlot_other _ _ _ _ _ _ hhead]

theorem goF_slots :
    ∀ l (table : Table) (names : List String) (k : Nat) (t : Table),
      TableWF table →
      (∀ s ∈ l, s.1 ∈ table.map Prod.fst) →
      ((l.map (fun s => (s.1, dayName s.2))).Nodup) →
      (∀ s ∈ l, slotList table s.1 (dayName s.2) = []) →
      goF l table names k = some t →
      ∀ s ∈ l, (slotList t s.1 (dayName s.2)).length = 1 := by
  intro l
  induction l with
  | nil =>
    intro table names k t _ _ _ _ _ s hs
    exact absurd hs (List.not_mem_nil s)
  | cons s0 rest ih =>
    intro table names k t hwf hkeys hnd hempty h
    obtain ⟨sid, d⟩ := s0
    rcases goF_cons_some h with ⟨w, _, hrec⟩
    have hproj : (sid, dayName d) ∉ rest.map (fun s => (s.1, dayName s.2)) :=
      (List.nodup_cons.mp hnd).1
    have hndrest : (rest.map (fun s => (s.1, dayName s.2))).Nodup :=
      (List.nodup_cons.mp hnd).2
    have hset : slotList (appendSlot table sid (dayName d) w) sid (dayName d) = [w] := by
      rw [slotList_appendSlot_self table sid (dayName d) w
        (hkeys (sid, d) (List.mem_cons_self _ _)) hwf.2 (dayName_mem d),
        hempty (sid, d) (List.mem_cons_self _ _)]
      rfl
    intro s hs
    rcases List.mem_cons.mp hs with hs0 | hsr
    · rw [hs0]
      have hfr : slotList t sid (dayName d)
          = slotList (appendSlot table sid (dayName d) w) sid (dayName d) := by
        refine goF_frame rest _ _ _ _ hrec sid (dayName d) ?_
        rintro s2 hs2 ⟨ha, hb⟩
        refine hproj ?_
        have he : (fun s => (s.1, dayName s.2)) s2 = (sid, dayName d) := by
          show (s2.1, dayName s2.2) = (sid, dayName d)
          rw [ha, hb]
        rw [← he]
        exact List.mem_map_of_mem _ hs2
      rw [hfr, hset]
      rfl
    · refine ih _ _ _ _ (wf_appendSlot hwf _ _ _) ?_ hndrest ?_ hrec s hsr
      · intro s2 hs2
        rw [keys_appendSlot]
        exact hkeys s2 (List.mem_cons_of_mem _ hs2)
      · intro s2 hs2
        have hne : ¬(s2.1 = sid ∧ dayName s2.2 = dayName d) := by
          rintro ⟨ha, hb⟩
          refine hproj ?_
          have he : (fun s => (s.1, dayName s.2)) s2 = (sid, dayName d) := by
            show (s2.1, dayName s2.2) = (sid, dayName d)
            rw [ha, hb]
          rw [← he]
          exact List.mem_map_of_mem _ hs2
        rw [slotList_appendSlot_other table sid (dayName d) w s2.1 (dayName s2.2) hne]
        exact hempty s2 (List.mem_cons_of_mem _ hs2)

theorem goF_total (names : List String) (hne : names ≠ []) :
    ∀ l (table : Table) (k : Nat),
      goF l table names k = some (applyAllSpec l names k table) := by
  intro l
  induction l with
  | nil =>
    intro table k
    rw [goF, applyAllSpec]
  | cons s rest ih =>
    intro table k
    obtain ⟨sid, d⟩ := s
    have hlen : 0 < names.length := List.length_pos.mpr hne
    have hlt : k % names.length < names.length := Nat.mod_lt k hlen
    have hget : names.get? (k % names.length)
        = some (names.getD (k % names.length) "") := by
      rw [List.get?_eq_get hlt, List.getD_eq_get?, List.get?_eq_get hlt]
      rfl
    rw [goF, hget, applyAllSpec]
    exact ih _ _

/-! ### Structure of the slot list -/

theorem mem_slots_of_mem :
    ∀ (shifts : List Shift) (s : Shift), s ∈ shifts → ∀ d ∈ s.days,
      (s.shift, d) ∈ slots shifts := by
  intro shifts
  induction shifts with
  | nil =>
    intro s hs
    exact absurd hs (List.not_mem_nil s)
  | cons s0 rest ih =>
    intro s hs d hd
    rcases List.mem_cons.mp hs with hs0 | hsr
    · subst hs0
      rw [slots]
      refine List.mem_append.mpr (Or.inl ?_)
      exact List.mem_map_of_mem _ hd
    · rw [slots]
      exact List.mem_append.mpr (Or.inr (ih s hsr d hd))

theorem slots_fst_mem :
    ∀ (shifts : List Shift) (sd : String × Day), sd ∈ slots shifts →
      sd.1 ∈ shifts.map Shift.shift := by
  intro shifts
  induction shifts with
  | nil =>
    intro sd hsd
    exact absurd hsd (List.not_mem_nil sd)
  | cons s0 rest ih =>
    intro sd hsd
    rw [slots] at hsd
    rcases List.mem_append.mp hsd with hb | hr
    · rcases List.mem_map.mp hb with ⟨d, _, hd⟩
      rw [← hd]
      exact List.mem_cons_self _ _
    · exact List.mem_cons_of_mem _ (ih sd hr)

theorem slots_proj_nodup :
    ∀ (shifts : List Shift), (shifts.map Shift.shift).Nodup →
      (∀ s ∈ shifts, s.days.Nodup) →
      ((slots shifts).map (fun s => (s.1, dayName s.2))).Nodup := by
  intro shifts
  induction shifts with
  | nil =>
    intro _ _
    simp [slots]
  | cons s0 rest ih =>
    intro hids hdays
    have hid0 : s0.shift ∉ rest.map Shift.shift := (List.nodup_cons.mp hids).1
    have hidr : (rest.map Shift.shift).Nodup := (List.nodup_cons.mp hids).2
    rw [slots, List.map_append]
    refine List.nodup_append.mpr ⟨?_, ?_, ?_⟩
    · rw [List.map_map]
      refine List.Nodup.map ?_ (hdays s0 (List.mem_cons_self _ _))
      intro d1 d2 hdd
      have h1 : dayName d1 = dayName d2 := congrArg Prod.snd hdd
      exact dayName_inj d1 d2 h1
    · exact ih hidr (fun s hs => hdays s (List.mem_cons_of_mem _ hs))
    · intro x hx hx2
      rcases List.mem_map.mp hx with ⟨sd, hsd, hsdx⟩
      rcases List.mem_map.mp hsd with ⟨d, _, hdsd⟩
      rcases List.mem_map.mp hx2 with ⟨sd2, hsd2, hsdx2⟩
      have hx1 : x.1 = s0.shift := by
        rw [← hsdx, ← hdsd]
      have hx1r : x.1 ∈ rest.map Shift.shift := by
        rw [← hsdx2]
        exact slots_fst_mem rest sd2 hsd2
      rw [hx1] at hx1r
      exact hid0 hx1r

theorem slots_active :
    ∀ (shifts : List Shift), (shifts.map Shift.shift).Nodup →
      ∀ sd ∈ slots shifts, ∀ s ∈ shifts, s.shift = sd.1 → sd.2 ∈ s.days := by
  intro shifts
  induction shifts with
  | nil =>
    intro _ sd hsd
    exact absurd hsd (List.not_mem_nil sd)
  | cons s0 rest ih =>
    intro hids sd hsd s hs hname
    have hid0 : s0.shift ∉ rest.map Shift.shift := (List.nodup_cons.mp hids).1
    have hidr : (rest.map Shift.shift).Nodup := (List.nodup_cons.mp hids).2
    rw [slots] at hsd
    rcases List.mem_append.mp hsd with hb | hr
    · rcases List.mem_map.mp hb with ⟨d, hd, hdsd⟩
      have hs0 : s = s0 := by
        rcases List.mem_cons.mp hs with h0 | hsr
        · exact h0
        · exfalso
          have : s.shift = s0.shift := by
            rw [hname, ← hdsd]
          refine hid0 ?_
          rw [← this]
          exact List.mem_map_of_mem _ hsr
      rw [hs0, ← hdsd]
      show d ∈ s0.days
      exact hd
    · rcases List.mem_cons.mp hs with h0 | hsr
      · exfalso
        have hsd1 : sd.1 ∈ rest.map Shift.shift := slots_fst_mem rest sd hr
        rw [← hname, h0] at hsd1
        exact hid0 hsd1
      · exact ih hidr sd hr s hsr hname

/-! ### The seeded randomness source is a valid random source -/

theorem pseudoShuffleAux_perm {α : Type} :
    ∀ (n : Nat) (l : List α) (s : Nat), l.length = n →
      (pseudoShuffleAux n l s).Perm l := by
  intro n
  induction n with
  | zero =>
    intro l s hl
    have h0 : l = [] := List.length_eq_zero.mp hl
    rw [h0]
    exact List.Perm.refl _
  | succ n ihn =>
    intro l s hl
    cases l with
    | nil => exact absurd hl (by simp)
    | cons a l1 =>
      cases hrot : (a :: l1).rotate (s % (a :: l1).length) with
      | nil =>
        exfalso
        have h2 := List.length_rotate (a :: l1) (s % (a :: l1).length)
        rw [hrot] at h2
        exact absurd h2.symm (by simp)
      | cons b rest =>
        have hstep : pseudoShuffleAux (n + 1) (a :: l1) s
            = b :: pseudoShuffleAux n rest (lcg s) := by
          show (match (a :: l1).rotate (s % (a :: l1).length) with
                | [] => []
                | b :: rest => b :: pseudoShuffleAux n rest (lcg s)) = _
          rw [hrot]
        have hlen : rest.length = n := by
          have h2 := List.length_rotate (a :: l1) (s % (a :: l1).length)
          rw [hrot] at h2
          simp at h2
          simp at hl
          omega
        rw [hstep]
        have hp1 : (pseudoShuffleAux n rest (lcg s)).Perm rest := ihn rest (lcg s) hlen
        refine (hp1.cons b).trans ?_
        rw [← hrot]
        exact List.rotate_perm _ _

theorem pseudoShuffle_perm {α : Type} (l : List α) (s : Nat) :
    (pseudoShuffle l s).Perm l :=
  pseudoShuffleAux_perm l.length l s rfl

theorem mkSamples_length (employees : List Worker) :
    ∀ (n s : Nat), (mkSamples employees n s).length = n := by
  intro n
  induction n with
  | zero => intro s; rfl
  | succ n ih =>
    intro s
    show (pseudoShuffle employees s :: mkSamples employees n (lcg s)).length = n + 1
    rw [List.length_cons, ih]

theorem mkSamples_perm (employees : List Worker) :
    ∀ (n s : Nat), ∀ b ∈ mkSamples employees n s, b.Perm employees := by
  intro n
  induction n with
  | zero =>
    intro s b hb
    exact absurd hb (List.not_mem_nil b)
  | succ n ih =>
    intro s b hb
    rcases List.mem_cons.mp hb with h0 | hr
    · rw [h0]
      exact pseudoShuffle_perm employees s
    · exact ih (lcg s) b hr

/-! ### Facts about valid random outcomes -/

theorem validSamples_mem {shifts : List Shift} {employees : List Worker}
    {samples : List (List Worker)} (h : validSamples shifts employees samples) :
    ∀ x ∈ samples.flatten.reverse, x ∈ employees := by
  intro x hx
  rw [List.mem_reverse] at hx
  rcases List.mem_flatten.mp hx with ⟨b, hb, hxb⟩
  exact (h.2 b hb).mem_iff.mp hxb

theorem validSamples_singleton {shifts : List Shift} {x : Worker}
    {samples : List (List Worker)} (h : validSamples shifts [x] samples) :
    samples = List.replicate (shifts.length * 7) [x] := by
  refine List.eq_replicate.mpr ⟨h.1, ?_⟩
  intro b hb
  exact List.perm_singleton.mp (h.2 b hb)

theorem flatten_nil_of_all_nil {α : Type} :
    ∀ L : List (List α), (∀ b ∈ L, b = []) → L.flatten = [] := by
  intro L
  induction L with
  | nil => intro _; rfl
  | cons b rest ih =>
    intro h
    rw [List.flatten_cons, h b (List.mem_cons_self _ _),
      ih (fun x hx => h x (List.mem_cons_of_mem _ hx))]
    rfl

theorem flatten_length_of_perm (employees : List Worker) :
    ∀ samples : List (List Worker), (∀ b ∈ samples, b.Perm employees) →
      samples.flatten.length = samples.length * employees.length := by
  intro samples
  induction samples with
  | nil => intro _; simp
  | cons b rest ih =>
    intro h
    have hb := (h b (List.mem_cons_self _ _)).length_eq
    rw [List.flatten_cons, List.length_append,
      ih (fun x hx => h x (List.mem_cons_of_mem _ hx)), hb, List.length_cons,
      Nat.succ_mul]
    omega

theorem flatten_count_of_perm (employees : List Worker) :
    ∀ samples : List (List Worker), (∀ b ∈ samples, b.Perm employees) →
      ∀ w : Worker, samples.flatten.count w = samples.length * employees.count w := by
  intro samples
  induction samples with
  | nil => intro _ w; simp
  | cons b rest ih =>
    intro h w
    have hb := (h b (List.mem_cons_self _ _)).count_eq w
    rw [List.flatten_cons, List.count_append,
      ih (fun x hx => h x (List.mem_cons_of_mem _ hx)) w, hb, List.length_cons,
      Nat.succ_mul]
    omega

/-! ### Fatal vs recoverable exhaustion -/

theorem go_fatal_iff :
    ∀ (l : List (String × Day)) (c : Committed) (table : Table) (pool : List Worker),
      go l c table pool = .fatalExit ↔ firstPopEmpty l c table pool = true := by
  intro l
  induction l with
  | nil =>
    intro c table pool
    constructor
    · intro h
      rw [go] at h
      exact AssignResult.noConfusion h
    · intro h
      rw [firstPopEmpty] at h
      exact Bool.noConfusion h
  | cons s rest ih =>
    intro c table pool
    obtain ⟨sid, d⟩ := s
    cases pool with
    | nil =>
      constructor
      · intro _
        rw [firstPopEmpty]
      · intro _
        rw [go]
    | cons e pool1 =>
      cases hfe : findEligible c d e pool1 with
      | none =>
        constructor
        · intro h
          rw [go, hfe] at h
          exact AssignResult.noConfusion h
        · intro h
          rw [firstPopEmpty, hfe] at h
          exact Bool.noConfusion h
      | some pr =>
        obtain ⟨emp, pool2⟩ := pr
        constructor
        · intro h
          rw [go, hfe] at h
          rw [firstPopEmpty, hfe]
          exact (ih _ _ _).mp h
        · intro h
          rw [firstPopEmpty, hfe] at h
          rw [go, hfe]
          exact (ih _ _ _).mpr h

/-! ## The claims -/

/-- C1: with pairwise-distinct worker names, whenever `assign_schedule`
returns a table, any worker name appears at most once across all shifts'
lists for any one weekday. -/
theorem assign_schedule_no_double_booking (shifts : List Shift)
    (employees : List Worker) (samples : List (List Worker)) (t : Table)
    (hnames : (employees.map Worker.name).Nodup)
    (hrand : validSamples shifts employees samples)
    (hok : assign_schedule shifts employees samples = .ok t) :
    ∀ (w : String) (d : Day), dayOccs t (dayName d) w ≤ 1 := by
  have _ := hnames
  have _ := hrand
  refine go_dayOccs (slots shifts) (fun _ _ => none) (initTable shifts)
    samples.flatten.reverse t (wf_initTable shifts) ?_ ?_ hok
  · intro w d2 _
    exact dayOccs_initTable shifts (dayName d2) w
  · intro w d2
    rw [dayOccs_initTable]
    exact Nat.zero_le 1

theorem assign_schedule_no_double_booking_witness :
    dayOccs weekTable (dayName 0) ("W") ≤ 1 :=
  assign_schedule_no_double_booking [weekShift] [demoWorker]
    (List.replicate 7 [demoWorker]) weekTable (by decide)
    (by unfold validSamples; decide) (by decide) ("W") 0

/-- C2 (counterexample to the claim as stated): with two same-named workers,
one unavailable on Monday, `assign_schedule` can return a table in which the
shared name appears on Monday, so without a distinct-names hypothesis the
unavailability property fails. -/
theorem unavailability_claim_counterexample :
    validSamples [mondayShift] [dupUnavailable, dupFree]
        (List.replicate 7 [dupUnavailable, dupFree])
    ∧ assign_schedule [mondayShift] [dupUnavailable, dupFree]
        (List.replicate 7 [dupUnavailable, dupFree]) = .ok dupTable
    ∧ dupUnavailable ∈ [dupUnavailable, dupFree]
    ∧ (0 : Day) ∈ dupUnavailable.unavailable
    ∧ dayOccs dupTable (dayName 0) dupUnavailable.name = 1 :=
  ⟨by unfold validSamples; decide, by decide, by decide, by decide, by decide⟩

/-- C2 (amended with pairwise-distinct worker names): whenever
`assign_schedule` returns a table, a worker never appears on a weekday from
their unavailable set. -/
theorem assign_schedule_unavailability_respected (shifts : List Shift)
    (employees : List Worker) (samples : List (List Worker)) (t : Table)
    (hnames : (employees.map Worker.name).Nodup)
    (hrand : validSamples shifts employees samples)
    (hok : assign_schedule shifts employees samples = .ok t) :
    ∀ e ∈ employees, ∀ d ∈ e.unavailable, dayOccs t (dayName d) e.name = 0 := by
  refine go_unavail employees
    (fun e1 he1 e2 he2 hn => List.inj_on_of_nodup_map hnames he1 he2 hn)
    (slots shifts) (fun _ _ => none) (initTable shifts) samples.flatten.reverse t
    (wf_initTable shifts) (validSamples_mem hrand) ?_ hok
  intro e _ d2 _
  exact dayOccs_initTable shifts (dayName d2) e.name

theorem assign_schedule_unavailability_respected_witness :
    dayOccs xTable (dayName 1) ("X") = 0 :=
  assign_schedule_unavailability_respected [mondayShift] [xWorker]
    (List.replicate 7 [xWorker]) xTable (by decide)
    (by unfold validSamples; decide) (by decide) xWorker (by decide) 1 (by decide)

/-- C3: with pairwise-distinct shift identifiers and duplicate-free per-shift
day sets, every active (shift, day) slot of a returned table holds exactly
one worker, for both assigners. -/
theorem assigners_full_coverage (shifts : List Shift)
    (hids : (shifts.map Shift.shift).Nodup)
    (hdays : ∀ s ∈ shifts, s.days.Nodup) :
    (∀ (employees : List Worker) (samples : List (List Worker)) (t : Table),
        assign_schedule shifts employees samples = .ok t →
        ∀ s ∈ shifts, ∀ d ∈ s.days, (slotList t s.shift (dayName d)).length = 1)
    ∧ (∀ (shuffled : List String) (t : Table),
        assign_schedule_without_preferences shifts shuffled = some t →
        ∀ s ∈ shifts, ∀ d ∈ s.days, (slotList t s.shift (dayName d)).length = 1) := by
  have hproj := slots_proj_nodup shifts hids hdays
  have hkeys : ∀ sd ∈ slots shifts, sd.1 ∈ (initTable shifts).map Prod.fst := by
    intro sd hsd
    rw [keys_initTable]
    exact (mem_dictKeys _ _).mpr (slots_fst_mem shifts sd hsd)
  have hempty : ∀ sd ∈ slots shifts, slotList (initTable shifts) sd.1 (dayName sd.2) = [] :=
    fun sd _ => slotList_initTable shifts _ _
  constructor
  · intro employees samples t hok s hs d hd
    exact go_slots (slots shifts) (fun _ _ => none) (initTable shifts)
      samples.flatten.reverse t (wf_initTable shifts) hkeys hproj hempty hok
      (s.shift, d) (mem_slots_of_mem shifts s hs d hd)
  · intro shuffled t hok s hs d hd
    exact goF_slots (slots shifts) (initTable shifts) shuffled 0 t
      (wf_initTable shifts) hkeys hproj hempty hok
      (s.shift, d) (mem_slots_of_mem shifts s hs d hd)

theorem assigners_full_coverage_witness :
    (slotList weekTable ("S") (dayName 0)).length = 1 :=
  (assigners_full_coverage [weekShift] (by decide) (by decide)).1 [demoWorker]
    (List.replicate 7 [demoWorker]) weekTable (by decide) weekShift (by decide)
    0 (by decide)

/-- C4: two shifts active only on Monday with a single unconstrained worker
make `assign_schedule` raise the recoverable `NotEnoughWorkersError` for
every outcome of the random shuffling. -/
theorem infeasibility_detection (samples : List (List Worker))
    (hrand : validSamples [openShift, closeShift] [demoWorker] samples) :
    assign_schedule [openShift, closeShift] [demoWorker] samples
      = .notEnoughWorkers := by
  have hs := validSamples_singleton hrand
  rw [hs]
  decide

theorem infeasibility_detection_witness :
    validSamples [openShift, closeShift] [demoWorker]
        (List.replicate 14 [demoWorker])
    ∧ assign_schedule [openShift, closeShift] [demoWorker]
        (List.replicate 14 [demoWorker]) = .notEnoughWorkers :=
  ⟨by unfold validSamples; decide,
   infeasibility_detection (List.replicate 14 [demoWorker])
     (by unfold validSamples; decide)⟩

/-- C5: the fatal abort happens exactly when the pool is empty at a slot's
first pop (in particular with zero workers and at least one active slot),
while pool exhaustion during candidate skipping yields the recoverable
`NotEnoughWorkersError` instead. -/
theorem pool_exhaustion_outcomes :
    (∀ (l : List (String × Day)) (c : Committed) (table : Table)
        (pool : List Worker),
        go l c table pool = .fatalExit ↔ firstPopEmpty l c table pool = true)
    ∧ (∀ (shifts : List Shift) (employees : List Worker)
        (samples : List (List Worker)),
        validSamples shifts employees samples → employees = [] →
        slots shifts ≠ [] →
        assign_schedule shifts employees samples = .fatalExit)
    ∧ (∀ (sid : String) (d : Day) (rest : List (String × Day)) (c : Committed)
        (table : Table) (e : Worker) (pool : List Worker),
        findEligible c d e pool = none →
        go ((sid, d) :: rest) c table (e :: pool) = .notEnoughWorkers) := by
  refine ⟨go_fatal_iff, ?_, ?_⟩
  · intro shifts employees samples hrand hemp hslot
    subst hemp
    have hall : ∀ b ∈ samples, b = [] := fun b hb => List.perm_nil.mp (hrand.2 b hb)
    have hfl : samples.flatten = [] := flatten_nil_of_all_nil samples hall
    show go (slots shifts) (fun _ _ => none) (initTable shifts)
      samples.flatten.reverse = .fatalExit
    rw [hfl, List.reverse_nil]
    cases hsl : slots shifts with
    | nil => exact absurd hsl hslot
    | cons s rest =>
      obtain ⟨sid, d⟩ := s
      rw [go]
  · intro sid d rest c table e pool hfe
    rw [go, hfe]

theorem pool_exhaustion_outcomes_witness :
    assign_schedule [mondayShift] [] (List.replicate 7 []) = .fatalExit
    ∧ go [(("S" : String), (0 : Day))] (fun _ _ => none) (initTable [mondayShift])
        [dupUnavailable, dupUnavailable] = .notEnoughWorkers :=
  ⟨pool_exhaustion_outcomes.2.1 [mondayShift] [] (List.replicate 7 [])
      (by unfold validSamples; decide) rfl (by decide),
   pool_exhaustion_outcomes.2.2 ("S") 0 [] (fun _ _ => none)
      (initTable [mondayShift]) dupUnavailable [dupUnavailable] (by decide)⟩

/-- C6: with at least one worker, the fallback assigner always returns, and
its table is the spec's closed form: the k-th active slot (shift-then-day
order, 0-based) receives position `k mod n` of the shuffled name sequence,
with no eligibility checks. -/
theorem fallback_closed_form (shifts : List Shift) (employees : List Worker)
    (shuffled : List String)
    (hne : employees ≠ [])
    (hperm : shuffled.Perm (employees.map Worker.name)) :
    assign_schedule_without_preferences shifts shuffled
      = some (fallbackSpecTable shifts shuffled) := by
  have hs : shuffled ≠ [] := by
    intro h0
    apply hne
    have hlen : (employees.map Worker.name).length = 0 := by
      rw [← hperm.length_eq, h0]
      rfl
    rw [List.length_map] at hlen
    exact List.length_eq_zero.mp hlen
  exact goF_total shuffled hs (slots shifts) (initTable shifts) 0

theorem fallback_closed_form_witness :
    assign_schedule_without_preferences [openShift, closeShift] [("W" : String)]
      = some (fallbackSpecTable [openShift, closeShift] [("W" : String)]) :=
  fallback_closed_form [openShift, closeShift] [demoWorker] [("W" : String)]
    (by decide) (by decide)

/-- C7: both assigners are deterministic functions of their inputs and the
seed of the seeded randomness source (which always produces valid random
outcomes), so two runs with the same seed and inputs agree, including on
whether an error occurs. -/
theorem determinism_under_fixed_seed (shifts : List Shift)
    (employees : List Worker) (seed : Nat) :
    validSamples shifts employees (mkSamples employees (shifts.length * 7) seed)
    ∧ assignScheduleSeeded shifts employees seed
        = assignScheduleSeeded shifts employees seed
    ∧ fallbackSeeded shifts employees seed = fallbackSeeded shifts employees seed :=
  ⟨⟨mkSamples_length employees (shifts.length * 7) seed,
    mkSamples_perm employees (shifts.length * 7) seed⟩, rfl, rfl⟩

/-- C8: a valid candidate pool (shifts × 7 shuffled permutation rounds,
flattened) has length shifts × 7 × workers, contains every worker record
with multiplicity shifts × 7 times its input multiplicity, and hence each
worker exactly shifts × 7 times when the worker list is duplicate-free. -/
theorem candidate_pool_structure (shifts : List Shift) (employees : List Worker)
    (samples : List (List Worker))
    (hrand : validSamples shifts employees samples) :
    samples.flatten.length = shifts.length * 7 * employees.length
    ∧ (∀ w : Worker,
        samples.flatten.count w = shifts.length * 7 * employees.count w)
    ∧ (employees.Nodup → ∀ w ∈ employees,
        samples.flatten.count w = shifts.length * 7) := by
  refine ⟨?_, ?_, ?_⟩
  · rw [flatten_length_of_perm employees samples hrand.2, hrand.1]
  · intro w
    rw [flatten_count_of_perm employees samples hrand.2 w, hrand.1]
  · intro hnd w hw
    rw [flatten_count_of_perm employees samples hrand.2 w, hrand.1,
      List.count_eq_one_of_mem hnd hw]
    exact Nat.mul_one _

theorem candidate_pool_structure_witness :
    (List.replicate 7 [demoWorker]).flatten.length = 1 * 7 * 1
    ∧ (List.replicate 7 [demoWorker]).flatten.count demoWorker = 1 * 7 :=
  ⟨(candidate_pool_structure [weekShift] [demoWorker]
      (List.replicate 7 [demoWorker]) (by unfold validSamples; decide)).1,
   (candidate_pool_structure [weekShift] [demoWorker]
      (List.replicate 7 [demoWorker]) (by unfold validSamples; decide)).2.2
      (by decide) demoWorker (by decide)⟩

/-- C9: one shift active on all seven days and one fully available worker:
`assign_schedule` returns for every random outcome, and the table assigns
that worker to the shift's slot on each of the seven weekdays. -/
theorem single_worker_full_week (samples : List (List Worker))
    (hrand : validSamples [weekShift] [demoWorker] samples) :
    assign_schedule [weekShift] [demoWorker] samples = .ok weekTable
    ∧ ∀ d : Day, slotList weekTable ("S") (dayName d) = [("W" : String)] := by
  have hs := validSamples_singleton hrand
  constructor
  · rw [hs]
    decide
  · decide

theorem single_worker_full_week_witness :
    validSamples [weekShift] [demoWorker] (List.replicate 7 [demoWorker])
    ∧ assign_schedule [weekShift] [demoWorker] (List.replicate 7 [demoWorker])
        = .ok weekTable :=
  ⟨by unfold validSamples; decide,
   (single_worker_full_week (List.replicate 7 [demoWorker])
      (by unfold validSamples; decide)).1⟩

/-- C10: with pairwise-distinct shift identifiers, a table returned by
either assigner keys exactly the shift identifiers, each inner table keys
exactly the seven weekday names, and every inactive weekday maps to the
empty list. -/
theorem table_structure (shifts : List Shift)
    (hids : (shifts.map Shift.shift).Nodup) :
    (∀ (employees : List Worker) (samples : List (List Worker)) (t : Table),
        assign_schedule shifts employees samples = .ok t →
        t.map Prod.fst = shifts.map Shift.shift
        ∧ (∀ p ∈ t, p.2.map Prod.fst = dayNames)
        ∧ (∀ s ∈ shifts, ∀ d : Day, d ∉ s.days →
            slotList t s.shift (dayName d) = []))
    ∧ (∀ (shuffled : List String) (t : Table),
        assign_schedule_without_preferences shifts shuffled = some t →
        t.map Prod.fst = shifts.map Shift.shift
        ∧ (∀ p ∈ t, p.2.map Prod.fst = dayNames)
        ∧ (∀ s ∈ shifts, ∀ d : Day, d ∉ s.days →
            slotList t s.shift (dayName d) = [])) := by
  have hkeys0 : (initTable shifts).map Prod.fst = shifts.map Shift.shift := by
    rw [keys_initTable, dictKeys_eq_self _ hids]
  have hfr : ∀ s ∈ shifts, ∀ d : Day, d ∉ s.days →
      ∀ sd ∈ slots shifts, ¬(sd.1 = s.shift ∧ dayName sd.2 = dayName d) := by
    rintro s hs d hd sd hsd ⟨h1, h2⟩
    have hds : sd.2 ∈ s.days := slots_active shifts hids sd hsd s hs h1.symm
    have hdd : sd.2 = d := dayName_inj sd.2 d h2
    rw [hdd] at hds
    exact hd hds
  constructor
  · intro employees samples t hok
    refine ⟨?_, ?_, ?_⟩
    · rw [go_ok_keys (slots shifts) _ _ _ t hok, hkeys0]
    · exact (go_ok_wf (slots shifts) _ _ _ t hok (wf_initTable shifts)).2
    · intro s hs d hd
      rw [go_frame (slots shifts) _ _ _ t hok s.shift (dayName d) (hfr s hs d hd)]
      exact slotList_initTable shifts _ _
  · intro shuffled t hok
    refine ⟨?_, ?_, ?_⟩
    · rw [goF_some_keys (slots shifts) _ _ _ t hok, hkeys0]
    · exact (goF_some_wf (slots shifts) _ _ _ t hok (wf_initTable shifts)).2
    · intro s hs d hd
      rw [goF_frame (slots shifts) _ _ _ t hok s.shift (dayName d) (hfr s hs d hd)]
      exact slotList_initTable shifts _ _

theorem table_structure_witness :
    slotList mondayTable ("S") (dayName 1) = [] :=
  ((table_structure [mondayShift] (by decide)).1 [demoWorker]
    (List.replicate 7 [demoWorker]) mondayTable (by decide)).2.2 mondayShift
    (by decide) 1 (by decide)

end Workschedulemaker
